import Mathlib

/-!
Shallow embedding of espressif/efuse/base_operations.py (esptool eFuse
burn orchestration).  Pure functions model the five command entry points
(burn_efuse, read_protect_efuse, write_protect_efuse, burn_block_data,
burn_bit); the side effects the claims observe (staging into blocks,
reaching burn_all, the advisory and verification notes that are printed)
are recorded in an explicit Run trace.  External collaborators that are
not part of the source file (the field registry, hardware read-back, the
value codec) are modelled as environment data and function parameters.
-/

namespace Esptool

/-- A named efuse field as used by base_operations: its owning block id and
the optional shared read/write protection bit ids (registry data from the
collaborator base_fields). -/
structure EfuseField where
  name : String
  block : Nat
  read_disable_bit : Option Nat
  write_disable_bit : Option Nat
  deriving DecidableEq

/-- An efuse block: id, command-surface name, byte length (get_block_len)
and coding scheme tag (get_coding_scheme). -/
structure EfuseBlock where
  id : Nat
  name : String
  len : Nat
  coding_scheme : Nat
  deriving DecidableEq

instance : Inhabited EfuseBlock := ⟨⟨0, "", 0, 0⟩⟩

/-- The registry owned by the controller: the ordered field list
(iteration `for e in efuses`) and the ordered block list (efuses.blocks). -/
structure EfuseEnv where
  efuses : List EfuseField
  blocks : List EfuseBlock

/-- The coding scheme tag meaning no coding; the hazard scan compares
get_coding_scheme against it. -/
def CODING_SCHEME_NONE : Nat := 0

/-- Modelled from the spec: field lookup `efuses[name]` (collaborator
EspEfuses, not under src); resolves a field name in the registry. -/
def EfuseEnv.findField? (env : EfuseEnv) (n : String) : Option EfuseField :=
  env.efuses.find? (fun e => e.name == n)

/-- Modelled from the spec: `efuses.blocks[i]` indexing (collaborator
EspEfuses, not under src). -/
def EfuseEnv.blockAt (env : EfuseEnv) (i : Nat) : EfuseBlock :=
  env.blocks.getD i default

/-- Modelled from the spec: `efuses.get_index_block_by_name` (collaborator
EspEfuses, not under src); index of the block with the given name. -/
def EfuseEnv.blockIdxByName? (env : EfuseEnv) (n : String) : Option Nat :=
  env.blocks.findIdx? (fun b => b.name == n)

/-- Modelled from the spec: util.check_duplicate_name_in_list (module util
is not under src/); true exactly when the list repeats a name, in which
case the entry point fails with DuplicateNameError. -/
def duplicate_name_in_list : List String → Bool
  | [] => false
  | n :: rest => rest.contains n || duplicate_name_in_list rest

/-- The typed failures of the five entry points (each raised as
esptool.FatalError in the source, carrying the data that the message
interpolates). -/
inductive EfuseError where
  | duplicateName
  | unknownField (name : String)
  | offsetMultiBlock
  | invalidOffset (blockId bytes : Nat)
  | countMismatch (nBlocks nFiles : Nat)
  | sizeMismatch (blockId expected actual offset : Nat)
  | bitRange (blockName : String) (maxIdx : Nat)
  | indexError
  | pairParity
  | invalidName (name : String)
  | burnFailed
  deriving DecidableEq

/-- Observable trace of one entry-point call: every staging call, whether
efuses.burn_all was reached, the advisory warnings, the verification notes
and the raised error (if any). -/
structure Run where
  fieldStaged : List (String × Nat)
  bitStaged : List (String × Option Nat)
  blockStaged : List (Nat × List Nat)
  warnings : List (Nat × List String)
  forceWrite : Option Bool
  burned : Bool
  checked : List String
  unreadable : List String
  mismatches : List String
  err : Option EfuseError
  deriving DecidableEq

/-- The empty trace: nothing staged, nothing burned, no error. -/
def emptyRun : Run :=
  ⟨[], [], [], [], none, false, [], [], [], none⟩

/-- Modelled from the spec: post-commit hardware observations and the value
codec (collaborator base_fields, not under src): is_readable and
get_bitstring after burn_all, and convert_to_bitstring, all keyed by field
name. -/
structure Hw where
  readable : String → Bool
  readback : String → Nat
  convert : String → Nat → Nat

/-- Embeds the list comprehension `[efuses[name] for name in names]`:
resolve every name, failing on the first unknown one. -/
def lookupAll (env : EfuseEnv) : List String → Except EfuseError (List EfuseField)
  | [] => .ok []
  | n :: rest =>
    match env.findField? n with
    | none => .error (.unknownField n)
    | some f =>
      match lookupAll env rest with
      | .error e => .error e
      | .ok fs => .ok (f :: fs)

/-- Embeds `list(set(a) ^ set(b))` membership-wise (the nondeterministic
order of a Python set is fixed deterministically; the claims only speak of
the enumerated set). -/
def symmDiffNames (a b : List String) : List String :=
  a.filter (fun x => !(b.contains x)) ++ b.filter (fun x => !(a.contains x))

/-- Embeds the inner field loop of the hazard scan in burn_efuse: for each
field of the current block burn list whose block has a coding scheme other
than NONE, recompute the blocked-name list and set the sticky attention
flag. -/
def hazardInner (env : EfuseEnv) (burnA : List EfuseField)
    (st : Bool × List String) : Bool × List String :=
  burnA.foldl
    (fun st f =>
      if (env.blockAt f.block).coding_scheme != CODING_SCHEME_NONE then
        (true,
          symmDiffNames
            ((env.efuses.filter (fun e => e.block == f.block)).map (fun e => e.name))
            (burnA.map (fun e => e.name)))
      else st)
    st

/-- Embeds the outer block loop of the hazard scan in burn_efuse: per block
with a nonempty burn list, run the field loop, and print the attention list
(recorded as a warning entry) when the sticky flag is set and the most
recently computed blocked list is nonempty. -/
def hazardGo (env : EfuseEnv) (burnList : List EfuseField) :
    List EfuseBlock → Bool × List String → List (Nat × List String)
  | [], _ => []
  | b :: rest, st =>
    if (burnList.filter (fun e => e.block == b.id)).isEmpty then
      hazardGo env burnList rest st
    else
      (if (hazardInner env (burnList.filter (fun e => e.block == b.id)) st).1
            && !(hazardInner env (burnList.filter (fun e => e.block == b.id)) st).2.isEmpty
        then [(b.id, (hazardInner env (burnList.filter (fun e => e.block == b.id)) st).2)]
        else []) ++
        hazardGo env burnList rest
          (hazardInner env (burnList.filter (fun e => e.block == b.id)) st)

/-- Embeds the verification loop of burn_efuse over the zipped target
list: an unreadable field is noted and skipped, a readable field whose
read-back differs from the encoded intended value is a mismatch.  Fields
are keyed by name (the looked-up field object of a name has that name). -/
def verifyLoop (hw : Hw) : List (String × Nat) → List String × List String
  | [] => ([], [])
  | (n, v) :: rest =>
    let r := verifyLoop hw rest
    if !(hw.readable n) then (n :: r.1, r.2)
    else if hw.readback n != hw.convert n v then (r.1, n :: r.2)
    else r

/-- Embeds burn_efuse: resolve every name, run the duplicate check, run the
hazard scan, stage every value, call burn_all, then verify and fail when
any mismatch accumulated. -/
def burn_efuse (env : EfuseEnv) (hw : Hw) (pairs : List (String × Nat)) : Run :=
  match lookupAll env (pairs.map (fun p => p.1)) with
  | .error e => { emptyRun with err := some e }
  | .ok fields =>
    if duplicate_name_in_list (pairs.map (fun p => p.1)) then
      { emptyRun with err := some .duplicateName }
    else
      { emptyRun with
        fieldStaged := pairs
        warnings := hazardGo env fields env.blocks (false, [])
        burned := true
        checked := pairs.map (fun p => p.1)
        unreadable := (verifyLoop hw pairs).1
        mismatches := (verifyLoop hw pairs).2
        err := if (verifyLoop hw pairs).2.isEmpty then none else some .burnFailed }

/-- Embeds the staging loop of read_protect_efuse: resolve each name in
turn; an already unreadable field makes the whole call return at once
(second component false, no error), otherwise its read-disable bit is
staged via disable_read and the loop continues.  Returns the staged list,
whether the loop ran to completion (so burn_all is reached) and the error
raised inside the loop, if any. -/
def read_protect_go (env : EfuseEnv) (isReadable : String → Bool) :
    List String → List (String × Option Nat) →
      List (String × Option Nat) × Bool × Option EfuseError
  | [], staged => (staged, true, none)
  | n :: rest, staged =>
    match env.findField? n with
    | none => (staged, false, some (.unknownField n))
    | some f =>
      if !(isReadable f.name) then (staged, false, none)
      else read_protect_go env isReadable rest (staged ++ [(f.name, f.read_disable_bit)])

/-- Embeds read_protect_efuse: duplicate check, staging loop with its
whole-call early return on an already protected field, burn_all, then the
verification loop over every requested name against the post-commit
readability observation. -/
def read_protect_efuse (env : EfuseEnv) (isReadable postReadable : String → Bool)
    (names : List String) : Run :=
  if duplicate_name_in_list names then { emptyRun with err := some .duplicateName }
  else
    match read_protect_go env isReadable names [] with
    | (staged, false, e) => { emptyRun with bitStaged := staged, err := e }
    | (staged, true, _) =>
      { emptyRun with
        bitStaged := staged
        burned := true
        checked := names
        mismatches := names.filter (fun n => postReadable n)
        err := if (names.filter (fun n => postReadable n)).isEmpty then none
               else some .burnFailed }

/-- Embeds the staging loop of write_protect_efuse: resolve each name in
turn; an already unwriteable field is skipped and the loop continues,
otherwise its write-disable bit is staged via disable_write. -/
def write_protect_go (env : EfuseEnv) (isWriteable : String → Bool) :
    List String → List (String × Option Nat) →
      List (String × Option Nat) × Bool × Option EfuseError
  | [], staged => (staged, true, none)
  | n :: rest, staged =>
    match env.findField? n with
    | none => (staged, false, some (.unknownField n))
    | some f =>
      if !(isWriteable f.name) then write_protect_go env isWriteable rest staged
      else write_protect_go env isWriteable rest (staged ++ [(f.name, f.write_disable_bit)])

/-- Embeds write_protect_efuse: duplicate check, staging loop that skips
already protected fields, burn_all, then the verification loop over every
requested name against the post-commit writeability observation. -/
def write_protect_efuse (env : EfuseEnv) (isWriteable postWriteable : String → Bool)
    (names : List String) : Run :=
  if duplicate_name_in_list names then { emptyRun with err := some .duplicateName }
  else
    match write_protect_go env isWriteable names [] with
    | (staged, false, e) => { emptyRun with bitStaged := staged, err := e }
    | (staged, true, _) =>
      { emptyRun with
        bitStaged := staged
        burned := true
        checked := names
        mismatches := names.filter (fun n => postWriteable n)
        err := if (names.filter (fun n => postWriteable n)).isEmpty then none
               else some .burnFailed }

/-- Embeds the data padding of burn_block_data: for a nonzero offset the
payload is left-padded with offset zero bytes and right-padded with zero
bytes up to the block byte length (Nat subtraction matching the empty
result of a negative Python byte multiplier); for offset zero the payload
is used as read. -/
def padData (offset num_bytes : Nat) (payload : List Nat) : List Nat :=
  if offset != 0 then
    (List.replicate offset 0 ++ payload) ++
      List.replicate (num_bytes - (List.replicate offset 0 ++ payload).length) 0
  else payload

/-- Embeds the per-block loop of burn_block_data: for each (name, payload)
pair the block is resolved, the payload padded, the exact-length check run
and the block staged. -/
def burn_block_loop (env : EfuseEnv) (offset : Nat) :
    List (String × List Nat) → List (Nat × List Nat) →
      List (Nat × List Nat) × Option EfuseError
  | [], staged => (staged, none)
  | (bn, payload) :: rest, staged =>
    match env.blockIdxByName? bn with
    | none => (staged, some (.unknownField bn))
    | some i =>
      if (padData offset (env.blockAt i).len payload).length != (env.blockAt i).len then
        (staged, some (.sizeMismatch (env.blockAt i).id (env.blockAt i).len
          (padData offset (env.blockAt i).len payload).length offset))
      else
        burn_block_loop env offset rest
          (staged ++ [((env.blockAt i).id, padData offset (env.blockAt i).len payload)])

/-- Embeds the offset validity check of burn_block_data (the `if offset:`
block): a nonzero offset must be below the byte length of the first named
block. -/
def offsetPrecheck (env : EfuseEnv) (argOffset : Nat) (blockNames : List String) :
    Option EfuseError :=
  if argOffset != 0 then
    match blockNames with
    | [] => some .indexError
    | bn :: _ =>
      match env.blockIdxByName? bn with
      | none => some (.unknownField bn)
      | some i =>
        if (env.blockAt i).len ≤ argOffset then
          some (.invalidOffset (env.blockAt i).id (env.blockAt i).len)
        else none
  else none

/-- Embeds burn_block_data: assign force_write_always, duplicate check,
offset checks (a nonzero offset forbids several blocks), the list-length
check, the staging loop and burn_all.  The argparse slicing of the padded
block and datafile argument lists is elided: the inputs are the two
trimmed lists. -/
def burn_block_data (env : EfuseEnv) (force_write_always : Bool) (argOffset : Nat)
    (blockNames : List String) (datafiles : List (List Nat)) : Run :=
  if duplicate_name_in_list blockNames then
    { emptyRun with forceWrite := some force_write_always, err := some .duplicateName }
  else if argOffset != 0 && blockNames.length > 1 then
    { emptyRun with forceWrite := some force_write_always, err := some .offsetMultiBlock }
  else
    match offsetPrecheck env argOffset blockNames with
    | some e => { emptyRun with forceWrite := some force_write_always, err := some e }
    | none =>
      if blockNames.length != datafiles.length then
        { emptyRun with
          forceWrite := some force_write_always
          err := some (.countMismatch blockNames.length datafiles.length) }
      else
        match burn_block_loop env argOffset (blockNames.zip datafiles) [] with
        | (staged, some e) =>
          { emptyRun with
            forceWrite := some force_write_always
            blockStaged := staged
            err := some e }
        | (staged, none) =>
          { emptyRun with
            forceWrite := some force_write_always
            blockStaged := staged
            burned := true }

/-- Modelled from the spec: BitString.set of the external bitstring
library, with the index convention of the spec (positions 0 to len-1);
returns none exactly when some position falls outside the buffer,
modelling the IndexError that burn_bit turns into its range error. -/
def setBits (buf : List Bool) : List Nat → Option (List Bool)
  | [] => some buf
  | p :: rest =>
    if p < buf.length then setBits (buf.set p true) rest
    else none

/-- Total variant of setBits used to phrase theorems about the in-range
case (List.set is the identity out of range). -/
def setBitsTotal (buf : List Bool) : List Nat → List Bool
  | [] => buf
  | p :: rest => setBitsTotal (buf.set p true) rest

/-- One byte from its eight bits, most significant bit first, matching the
serialization order of BitString.bytes. -/
def bitsToByte (bits : List Bool) : Nat :=
  bits.foldl (fun acc b => 2 * acc + (if b then 1 else 0)) 0

/-- Serializes a bit buffer to bytes, eight bits at a time, most
significant bit of each byte first (BitString.bytes).  The buffers built
by burn_bit always hold a multiple of eight bits; a shorter tail (on which
the external library would raise) is serialized as one final byte. -/
def bitsToBytes : List Bool → List Nat
  | [] => []
  | b0 :: b1 :: b2 :: b3 :: b4 :: b5 :: b6 :: b7 :: rest =>
    bitsToByte [b0, b1, b2, b3, b4, b5, b6, b7] :: bitsToBytes rest
  | bs => [bitsToByte bs]

/-- Embeds burn_bit: build the zeroed bit buffer of block bit length, set
the requested bits (an out-of-range index raises the bounds error naming
the inclusive range end), reverse the bit order of the whole buffer,
serialize to bytes and stage the bytes in reverse byte order, then
burn_all. -/
def burn_bit (env : EfuseEnv) (blockName : String) (bit_numbers : List Nat) : Run :=
  match env.blockIdxByName? blockName with
  | none => { emptyRun with err := some (.unknownField blockName) }
  | some i =>
    match setBits (List.replicate ((env.blockAt i).len * 8) false) bit_numbers with
    | none =>
      { emptyRun with err := some (.bitRange blockName ((env.blockAt i).len * 8 - 1)) }
    | some buf =>
      { emptyRun with
        blockStaged := [((env.blockAt i).id, (bitsToBytes buf.reverse).reverse)]
        burned := true }

/-- Embeds the dict insertion pairs[name] = value of
ActionEfuseValuePair: an existing key keeps its place and takes the new
value, a new key is appended. -/
def dictInsert (d : List (String × Nat)) (k : String) (v : Nat) : List (String × Nat) :=
  if d.any (fun p => p.1 == k) then
    d.map (fun p => if p.1 == k then (k, v) else p)
  else d ++ [(k, v)]

/-- Embeds the pair loop of ActionEfuseValuePair over an even-length value
list: names are checked against the choices, values run through the
external checker, and the pair lands in the dict with the last value for a
repeated name winning. -/
def buildPairs (choices : List String) (checkArg : String → Option String → Nat) :
    List String → List (String × Nat) → Except EfuseError (List (String × Nat))
  | [], acc => .ok acc
  | n :: v :: rest, acc =>
    if choices.contains n then
      buildPairs choices checkArg rest (dictInsert acc n (checkArg n (some v)))
    else .error (.invalidName n)
  | _ :: [], _ => .error .pairParity

/-- Embeds ActionEfuseValuePair.__call__ building the name-to-value dict
from the raw argument list: several arguments must pair up evenly, a
single argument is a bare name whose value the checker derives from none.
The external CheckArgValue codec is the checkArg parameter. -/
def actionEfuseValuePair (choices : List String)
    (checkArg : String → Option String → Nat) (values : List String) :
    Except EfuseError (List (String × Nat)) :=
  if values.length > 1 then
    if values.length % 2 == 1 then .error .pairParity
    else buildPairs choices checkArg values []
  else
    match values with
    | [] => .error .indexError
    | n :: _ =>
      if choices.contains n then .ok (dictInsert [] n (checkArg n none))
      else .error (.invalidName n)

/-! ### Helper lemmas -/

/-- The field object resolved for a name carries that name. -/
theorem findField?_name {env : EfuseEnv} {n : String} {f : EfuseField}
    (h : env.findField? n = some f) : f.name = n := by
  have := List.find?_some h
  simpa using this

/-- Resolving every name succeeds when each name is resolvable. -/
theorem lookupAll_ok_of_isSome {env : EfuseEnv} :
    ∀ {ns : List String}, (∀ n ∈ ns, (env.findField? n).isSome) →
      ∃ fs, lookupAll env ns = .ok fs := by
  intro ns
  induction ns with
  | nil => intro _; exact ⟨[], rfl⟩
  | cons n rest ih =>
    intro h
    have hn := h n (by simp)
    obtain ⟨f, hf⟩ := Option.isSome_iff_exists.mp hn
    obtain ⟨fs, hfs⟩ := ih (fun m hm => h m (by simp [hm]))
    exact ⟨f :: fs, by simp [lookupAll, hf, hfs]⟩

/-- The verification loop accumulates no mismatch exactly when every
readable target reads back as the encoded intended value. -/
theorem verifyLoop_mismatches_nil (hw : Hw) (ps : List (String × Nat)) :
    (verifyLoop hw ps).2 = [] ↔
      ∀ p ∈ ps, hw.readable p.1 = true → hw.readback p.1 = hw.convert p.1 p.2 := by
  induction ps with
  | nil => simp [verifyLoop]
  | cons p rest ih =>
    obtain ⟨n, v⟩ := p
    by_cases hr : hw.readable n
    · by_cases hm : hw.readback n = hw.convert n v
      · simp [verifyLoop, hr, hm, ih]
      · simp [verifyLoop, hr, hm]
    · simp [verifyLoop, hr, ih]

/-- Every unreadable target is noted by the verification loop. -/
theorem verifyLoop_unreadable_mem (hw : Hw) (ps : List (String × Nat)) :
    ∀ p ∈ ps, hw.readable p.1 = false → p.1 ∈ (verifyLoop hw ps).1 := by
  induction ps with
  | nil => simp
  | cons q rest ih =>
    obtain ⟨n, v⟩ := q
    intro p hp hpr
    rcases List.mem_cons.mp hp with hp | hp
    · cases hp
      simp [verifyLoop, hpr]
    · have := ih p hp hpr
      by_cases hr : hw.readable n
      · by_cases hm : hw.readback n = hw.convert n v <;>
          simp [verifyLoop, hr, hm, this]
      · simp [verifyLoop, hr, this]

/-- Branch equation: an unknown name makes burn_efuse abort with that
error and an otherwise empty trace. -/
theorem burn_efuse_eq_error (env : EfuseEnv) (hw : Hw) (pairs : List (String × Nat))
    (e : EfuseError) (hl : lookupAll env (pairs.map (fun p => p.1)) = .error e) :
    burn_efuse env hw pairs = { emptyRun with err := some e } := by
  unfold burn_efuse; rw [hl]

/-- Branch equation: a duplicated name makes burn_efuse abort with
DuplicateNameError and an otherwise empty trace. -/
theorem burn_efuse_eq_dup (env : EfuseEnv) (hw : Hw) (pairs : List (String × Nat))
    (fields : List EfuseField)
    (hl : lookupAll env (pairs.map (fun p => p.1)) = .ok fields)
    (hd : duplicate_name_in_list (pairs.map (fun p => p.1)) = true) :
    burn_efuse env hw pairs = { emptyRun with err := some .duplicateName } := by
  unfold burn_efuse; rw [hl]; simp [hd]

/-- Branch equation: with resolvable, duplicate-free names burn_efuse
stages every pair, emits the hazard warnings, burns and verifies. -/
theorem burn_efuse_eq_ok (env : EfuseEnv) (hw : Hw) (pairs : List (String × Nat))
    (fields : List EfuseField)
    (hl : lookupAll env (pairs.map (fun p => p.1)) = .ok fields)
    (hd : duplicate_name_in_list (pairs.map (fun p => p.1)) = false) :
    burn_efuse env hw pairs =
      { emptyRun with
        fieldStaged := pairs
        warnings := hazardGo env fields env.blocks (false, [])
        burned := true
        checked := pairs.map (fun p => p.1)
        unreadable := (verifyLoop hw pairs).1
        mismatches := (verifyLoop hw pairs).2
        err := if (verifyLoop hw pairs).2.isEmpty then none
               else some .burnFailed } := by
  unfold burn_efuse; rw [hl]; simp [hd]

/-- Claim C1: a value burn that reaches the commit succeeds exactly when
every target field that is still readable reads back as the encoded
intended value; a mismatch on a readable field makes the call fail, while
a target that is no longer readable is only noted as unverifiable. -/
theorem burn_efuse_verification (env : EfuseEnv) (hw : Hw)
    (pairs : List (String × Nat))
    (h : (burn_efuse env hw pairs).burned = true) :
    ((burn_efuse env hw pairs).err = none ↔
       ∀ p ∈ pairs, hw.readable p.1 = true → hw.readback p.1 = hw.convert p.1 p.2)
    ∧ ∀ p ∈ pairs, hw.readable p.1 = false →
        p.1 ∈ (burn_efuse env hw pairs).unreadable := by
  cases hl : lookupAll env (pairs.map (fun p => p.1)) with
  | error e =>
    rw [burn_efuse_eq_error env hw pairs e hl] at h
    simp [emptyRun] at h
  | ok fields =>
    cases hd : duplicate_name_in_list (pairs.map (fun p => p.1)) with
    | true =>
      rw [burn_efuse_eq_dup env hw pairs fields hl hd] at h
      simp [emptyRun] at h
    | false =>
      rw [burn_efuse_eq_ok env hw pairs fields hl hd]
      refine ⟨?_, fun p hp hpr => verifyLoop_unreadable_mem hw pairs p hp hpr⟩
      rw [← verifyLoop_mismatches_nil hw pairs]
      constructor
      · intro he
        by_contra hne
        simp only [List.isEmpty_iff] at he
        rw [if_neg hne] at he
        exact Option.noConfusion he
      · intro he
        simp [List.isEmpty_iff, he]

/-- Branch equation: a duplicated name makes read_protect_efuse abort with
DuplicateNameError and an otherwise empty trace. -/
theorem read_protect_eq_dup (env : EfuseEnv) (isR postR : String → Bool)
    (names : List String) (hd : duplicate_name_in_list names = true) :
    read_protect_efuse env isR postR names = { emptyRun with err := some .duplicateName } := by
  unfold read_protect_efuse; simp [hd]

/-- Branch equation: when the staging loop of read_protect_efuse stops
before its end (early return or unknown name), the call ends with the bits
staged so far, no burn, no verification. -/
theorem read_protect_eq_stop (env : EfuseEnv) (isR postR : String → Bool)
    (names : List String) (staged : List (String × Option Nat)) (e : Option EfuseError)
    (hd : duplicate_name_in_list names = false)
    (hgo : read_protect_go env isR names [] = (staged, false, e)) :
    read_protect_efuse env isR postR names = { emptyRun with bitStaged := staged, err := e } := by
  unfold read_protect_efuse
  rw [if_neg (by simp [hd]), hgo]

/-- Branch equation: when the staging loop of read_protect_efuse runs to
completion the call burns and verifies every requested name. -/
theorem read_protect_eq_done (env : EfuseEnv) (isR postR : String → Bool)
    (names : List String) (staged : List (String × Option Nat)) (e : Option EfuseError)
    (hd : duplicate_name_in_list names = false)
    (hgo : read_protect_go env isR names [] = (staged, true, e)) :
    read_protect_efuse env isR postR names =
      { emptyRun with
        bitStaged := staged
        burned := true
        checked := names
        mismatches := names.filter (fun n => postR n)
        err := if (names.filter (fun n => postR n)).isEmpty then none
               else some .burnFailed } := by
  unfold read_protect_efuse
  rw [if_neg (by simp [hd]), hgo]

/-- Branch equation: a duplicated name makes write_protect_efuse abort
with DuplicateNameError and an otherwise empty trace. -/
theorem write_protect_eq_dup (env : EfuseEnv) (isW postW : String → Bool)
    (names : List String) (hd : duplicate_name_in_list names = true) :
    write_protect_efuse env isW postW names = { emptyRun with err := some .duplicateName } := by
  unfold write_protect_efuse; simp [hd]

/-- Branch equation: when the staging loop of write_protect_efuse stops on
an unknown name the call ends with the bits staged so far and no burn. -/
theorem write_protect_eq_stop (env : EfuseEnv) (isW postW : String → Bool)
    (names : List String) (staged : List (String × Option Nat)) (e : Option EfuseError)
    (hd : duplicate_name_in_list names = false)
    (hgo : write_protect_go env isW names [] = (staged, false, e)) :
    write_protect_efuse env isW postW names = { emptyRun with bitStaged := staged, err := e } := by
  unfold write_protect_efuse
  rw [if_neg (by simp [hd]), hgo]

/-- Branch equation: when the staging loop of write_protect_efuse runs to
completion the call burns and verifies every requested name. -/
theorem write_protect_eq_done (env : EfuseEnv) (isW postW : String → Bool)
    (names : List String) (staged : List (String × Option Nat)) (e : Option EfuseError)
    (hd : duplicate_name_in_list names = false)
    (hgo : write_protect_go env isW names [] = (staged, true, e)) :
    write_protect_efuse env isW postW names =
      { emptyRun with
        bitStaged := staged
        burned := true
        checked := names
        mismatches := names.filter (fun n => postW n)
        err := if (names.filter (fun n => postW n)).isEmpty then none
               else some .burnFailed } := by
  unfold write_protect_efuse
  rw [if_neg (by simp [hd]), hgo]

/-- The read-protect staging loop returns early, with no error, as soon as
some requested field is already unreadable (all names resolvable). -/
theorem read_protect_go_stop (env : EfuseEnv) (isR : String → Bool) :
    ∀ (names : List String) (acc : List (String × Option Nat)),
      (∀ n ∈ names, (env.findField? n).isSome) →
      (∃ n ∈ names, isR n = false) →
      ∃ staged, read_protect_go env isR names acc = (staged, false, none) := by
  intro names
  induction names with
  | nil => intro acc _ hex; simp at hex
  | cons n rest ih =>
    intro acc h hex
    obtain ⟨f, hf⟩ := Option.isSome_iff_exists.mp (h n (by simp))
    have hname := findField?_name hf
    by_cases hr : isR n
    · have hex2 : ∃ m ∈ rest, isR m = false := by
        rcases hex with ⟨m, hm, hmr⟩
        rcases List.mem_cons.mp hm with hm | hm
        · subst hm; rw [hr] at hmr; cases hmr
        · exact ⟨m, hm, hmr⟩
      obtain ⟨staged, hgo⟩ :=
        ih (acc ++ [(f.name, f.read_disable_bit)]) (fun m hm => h m (by simp [hm])) hex2
      rw [hname] at hgo
      exact ⟨staged, by simp [read_protect_go, hf, hname, hr, hgo]⟩
    · refine ⟨acc, ?_⟩
      simp only [Bool.not_eq_true] at hr
      simp [read_protect_go, hf, hname, hr]

/-- The read-protect staging loop, run on an all-readable resolvable
prefix followed by an already unreadable field, stages exactly the bits of
the prefix and then returns early with no error. -/
theorem read_protect_go_prefix (env : EfuseEnv) (isR : String → Bool) :
    ∀ (ns1 : List String) (acc : List (String × Option Nat)) (bad : String)
      (rest : List String),
      (∀ n ∈ ns1, (env.findField? n).isSome ∧ isR n = true) →
      (env.findField? bad).isSome → isR bad = false →
      ∃ st, read_protect_go env isR (ns1 ++ bad :: rest) acc = (acc ++ st, false, none) ∧
        st.map Prod.fst = ns1 := by
  intro ns1
  induction ns1 with
  | nil =>
    intro acc bad rest _ hbad hbadR
    obtain ⟨fb, hfb⟩ := Option.isSome_iff_exists.mp hbad
    have hnameb := findField?_name hfb
    refine ⟨[], ?_, rfl⟩
    simp [read_protect_go, hfb, hnameb, hbadR]
  | cons n ns ih =>
    intro acc bad rest h hbad hbadR
    obtain ⟨f, hf⟩ := Option.isSome_iff_exists.mp (h n (by simp)).1
    have hname := findField?_name hf
    have hr : isR n = true := (h n (by simp)).2
    obtain ⟨st, hgo, hmap⟩ :=
      ih (acc ++ [(f.name, f.read_disable_bit)]) bad rest
        (fun m hm => h m (by simp [hm])) hbad hbadR
    rw [hname] at hgo
    refine ⟨(n, f.read_disable_bit) :: st, ?_, by simp [hmap]⟩
    simp only [List.cons_append, read_protect_go, hf, hname, hr, Bool.not_true,
      Bool.false_eq_true, if_false, List.append_eq]
    rw [hgo]
    simp

/-- The write-protect staging loop always runs to completion when every
name resolves, staging exactly the not-yet-protected names in order. -/
theorem write_protect_go_done (env : EfuseEnv) (isW : String → Bool) :
    ∀ (names : List String) (acc : List (String × Option Nat)),
      (∀ n ∈ names, (env.findField? n).isSome) →
      ∃ st, write_protect_go env isW names acc = (acc ++ st, true, none) ∧
        st.map Prod.fst = names.filter (fun n => isW n) := by
  intro names
  induction names with
  | nil => intro acc _; exact ⟨[], by simp [write_protect_go], by simp⟩
  | cons n rest ih =>
    intro acc h
    obtain ⟨f, hf⟩ := Option.isSome_iff_exists.mp (h n (by simp))
    have hname := findField?_name hf
    by_cases hw : isW n
    · obtain ⟨st, hgo, hmap⟩ :=
        ih (acc ++ [(f.name, f.write_disable_bit)]) (fun m hm => h m (by simp [hm]))
      rw [hname] at hgo
      refine ⟨(n, f.write_disable_bit) :: st, ?_, ?_⟩
      · simp only [write_protect_go, hf, hname, hw, Bool.not_true,
          Bool.false_eq_true, if_false]
        rw [hgo]
        simp
      · simp [hmap, hw]
    · obtain ⟨st, hgo, hmap⟩ := ih acc (fun m hm => h m (by simp [hm]))
      simp only [Bool.not_eq_true] at hw
      refine ⟨st, ?_, ?_⟩
      · simp [write_protect_go, hf, hname, hw, hgo]
      · simp [hmap, hw]

/-- Claim C2: read-protect and write-protect are asymmetric: when some
requested field is already read-protected, read-protect returns from the
whole call without committing or verifying anything, while write-protect
skips the already protected fields, stages the rest, and commits and
verifies every named field. -/
theorem protect_asymmetry (env : EfuseEnv) (isR postR isW postW : String → Bool)
    (names : List String)
    (hdup : duplicate_name_in_list names = false)
    (hres : ∀ n ∈ names, (env.findField? n).isSome) :
    ((∃ n ∈ names, isR n = false) →
        (read_protect_efuse env isR postR names).burned = false ∧
        (read_protect_efuse env isR postR names).err = none ∧
        (read_protect_efuse env isR postR names).checked = [])
    ∧ (write_protect_efuse env isW postW names).burned = true
    ∧ (write_protect_efuse env isW postW names).checked = names
    ∧ (write_protect_efuse env isW postW names).bitStaged.map Prod.fst
        = names.filter (fun n => isW n) := by
  constructor
  · intro hex
    obtain ⟨staged, hgo⟩ := read_protect_go_stop env isR names [] hres hex
    rw [read_protect_eq_stop env isR postR names staged none hdup hgo]
    exact ⟨rfl, rfl, rfl⟩
  · obtain ⟨st, hgo, hmap⟩ := write_protect_go_done env isW names [] hres
    rw [List.nil_append] at hgo
    rw [write_protect_eq_done env isW postW names st none hdup hgo]
    exact ⟨rfl, rfl, hmap⟩

/-- Claim C9: a read-protect call whose list has not-yet-protected fields
before an already protected one stages the read-disable bits of the
earlier fields but then returns before the commit primitive: nothing is
burned, nothing is verified, and no error is raised, so the staged
protections are silently never burned. -/
theorem read_protect_early_return_frame (env : EfuseEnv) (isR postR : String → Bool)
    (ns1 : List String) (bad : String) (rest : List String)
    (hdup : duplicate_name_in_list (ns1 ++ bad :: rest) = false)
    (h1 : ∀ n ∈ ns1, (env.findField? n).isSome ∧ isR n = true)
    (hbad : (env.findField? bad).isSome) (hbadR : isR bad = false) :
    (read_protect_efuse env isR postR (ns1 ++ bad :: rest)).bitStaged.map Prod.fst = ns1
    ∧ (read_protect_efuse env isR postR (ns1 ++ bad :: rest)).burned = false
    ∧ (read_protect_efuse env isR postR (ns1 ++ bad :: rest)).err = none
    ∧ (read_protect_efuse env isR postR (ns1 ++ bad :: rest)).checked = []
    ∧ (read_protect_efuse env isR postR (ns1 ++ bad :: rest)).mismatches = [] := by
  obtain ⟨st, hgo, hmap⟩ := read_protect_go_prefix env isR ns1 [] bad rest h1 hbad hbadR
  rw [List.nil_append] at hgo
  rw [read_protect_eq_stop env isR postR (ns1 ++ bad :: rest) st none hdup hgo]
  exact ⟨hmap, rfl, rfl, rfl, rfl⟩

/-- Length of the padded payload: unchanged for offset zero, otherwise the
offset-shifted length topped up to the block length (without truncation). -/
theorem padData_length (o L : Nat) (payload : List Nat) :
    (padData o L payload).length =
      if o = 0 then payload.length
      else (o + payload.length) + (L - (o + payload.length)) := by
  by_cases h0 : o = 0
  · simp [padData, h0]
  · simp [padData, h0]
    omega

/-- Claim C3 (amended): in a single-block raw burn the staged buffer is
the payload placed at the offset and zero-padded to the block length, but
the zero padding happens only for a nonzero offset: the call fails with
the size-mismatch error exactly when the offset is nonzero and the padded
payload overruns the block, or the offset is zero and the payload is not
exactly the block length. -/
theorem burn_block_data_staging (env : EfuseEnv) (fw : Bool) (o : Nat) (bn : String)
    (payload : List Nat) (i : Nat)
    (hi : env.blockIdxByName? bn = some i)
    (ho : o = 0 ∨ o < (env.blockAt i).len) :
    ((burn_block_data env fw o [bn] [payload]).err = none ↔
      (if o = 0 then payload.length = (env.blockAt i).len
       else o + payload.length ≤ (env.blockAt i).len))
    ∧ ((burn_block_data env fw o [bn] [payload]).err = none →
        (burn_block_data env fw o [bn] [payload]).blockStaged =
          [((env.blockAt i).id,
            List.replicate o 0 ++ payload ++
              List.replicate ((env.blockAt i).len - (o + payload.length)) 0)]
        ∧ (burn_block_data env fw o [bn] [payload]).burned = true)
    ∧ ((burn_block_data env fw o [bn] [payload]).err ≠ none →
        (burn_block_data env fw o [bn] [payload]).err =
          some (.sizeMismatch (env.blockAt i).id (env.blockAt i).len
            (if o = 0 then payload.length else o + payload.length) o)
        ∧ (burn_block_data env fw o [bn] [payload]).blockStaged = []
        ∧ (burn_block_data env fw o [bn] [payload]).burned = false) := by
  have hdup : duplicate_name_in_list [bn] = false := by
    simp [duplicate_name_in_list]
  have hpre : offsetPrecheck env o [bn] = none := by
    rcases ho with h0 | hlt
    · simp [offsetPrecheck, h0]
    · by_cases h0 : o = 0
      · simp [offsetPrecheck, h0]
      · simp [offsetPrecheck, h0, hi, Nat.not_le.mpr hlt]
  by_cases hfit :
      (padData o (env.blockAt i).len payload).length = (env.blockAt i).len
  · have hloop : burn_block_loop env o [(bn, payload)] [] =
        ([((env.blockAt i).id, padData o (env.blockAt i).len payload)], none) := by
      simp [burn_block_loop, hi, hfit]
    have hrun : burn_block_data env fw o [bn] [payload] =
        { emptyRun with
          forceWrite := some fw
          blockStaged := [((env.blockAt i).id, padData o (env.blockAt i).len payload)]
          burned := true } := by
      unfold burn_block_data
      rw [if_neg (by simp [hdup]), if_neg (by simp), hpre, if_neg (by simp)]
      have hz : [bn].zip [payload] = [(bn, payload)] := rfl
      rw [hz, hloop]
    rw [padData_length] at hfit
    have hcond : (if o = 0 then payload.length = (env.blockAt i).len
        else o + payload.length ≤ (env.blockAt i).len) := by
      by_cases h0 : o = 0 <;> simp [h0] at hfit ⊢ <;> omega
    refine ⟨by simp [hrun, hcond, emptyRun], fun _ => ⟨?_, by simp [hrun, emptyRun]⟩,
      fun hne => absurd (by simp [hrun, emptyRun]) hne⟩
    rw [hrun]
    by_cases h0 : o = 0
    · subst h0
      simp at hcond
      simp [padData, hcond]
    · simp only [if_neg h0] at hcond
      simp [padData, h0, List.append_assoc]
  · have hloop : burn_block_loop env o [(bn, payload)] [] =
        ([], some (.sizeMismatch (env.blockAt i).id (env.blockAt i).len
          (padData o (env.blockAt i).len payload).length o)) := by
      simp [burn_block_loop, hi, hfit]
    have hrun : burn_block_data env fw o [bn] [payload] =
        { emptyRun with
          forceWrite := some fw
          blockStaged := []
          err := some (.sizeMismatch (env.blockAt i).id (env.blockAt i).len
            (padData o (env.blockAt i).len payload).length o) } := by
      unfold burn_block_data
      rw [if_neg (by simp [hdup]), if_neg (by simp), hpre, if_neg (by simp)]
      have hz : [bn].zip [payload] = [(bn, payload)] := rfl
      rw [hz, hloop]
    have hlen : (padData o (env.blockAt i).len payload).length =
        (if o = 0 then payload.length else o + payload.length) := by
      rw [padData_length] at hfit ⊢
      by_cases h0 : o = 0
      · simp [h0] at hfit ⊢
      · simp [h0] at hfit ⊢
        omega
    have hcond : ¬(if o = 0 then payload.length = (env.blockAt i).len
        else o + payload.length ≤ (env.blockAt i).len) := by
      rw [padData_length] at hfit
      by_cases h0 : o = 0 <;> simp [h0] at hfit ⊢ <;> omega
    refine ⟨by simp [hrun, hcond], fun habs => absurd habs (by simp [hrun]), fun _ => ?_⟩
    rw [hrun, hlen]
    exact ⟨rfl, rfl, rfl⟩

/-! ### Concrete test registry shared by witnesses and counterexamples -/

/-- Test field in block 0. -/
def fldA : EfuseField := ⟨"A", 0, some 0, some 1⟩

/-- Second test field in block 0, sharing the read-disable bit of fldA. -/
def fldB : EfuseField := ⟨"B", 0, some 0, some 2⟩

/-- Test field in block 1 with its own protection bits. -/
def fldC : EfuseField := ⟨"C", 1, some 3, some 4⟩

/-- Test registry: block 0 carries a non-NONE coding scheme, block 1 a
small raw block, block 2 a 32-byte raw block. -/
def envT : EfuseEnv :=
  ⟨[fldA, fldB, fldC],
   [⟨0, "BLK0", 4, 1⟩, ⟨1, "BLK1", 2, 0⟩, ⟨2, "BLK2", 32, 0⟩]⟩

/-- Test hardware observation: everything readable, every read-back 7,
identity codec. -/
def hwT : Hw := ⟨fun _ => true, fun _ => 7, fun _ v => v⟩

/-- Counterexample to claim C3 as stated: with offset 0 and a 2-byte
payload into the 4-byte block the payload could be zero-padded to exactly
the block length, yet the call fails with the size-mismatch error, because
the code pads only when the offset is nonzero. -/
theorem burn_block_data_offset0_cex :
    (burn_block_data envT false 0 ["BLK0"] [[1, 2]]).err =
      some (.sizeMismatch 0 4 2 0)
    ∧ 0 + 2 ≤ 4 := by
  constructor
  · rfl
  · decide

/-- A value burn that reached burn_all can only end cleanly or in the
verification failure. -/
theorem burn_efuse_burned_err (env : EfuseEnv) (hw : Hw) (pairs : List (String × Nat)) :
    (burn_efuse env hw pairs).burned = true →
    (burn_efuse env hw pairs).err = none ∨
      (burn_efuse env hw pairs).err = some .burnFailed := by
  unfold burn_efuse
  split
  · simp [emptyRun]
  · split
    · simp [emptyRun]
    · split <;> simp

/-- A read-protect call that reached burn_all can only end cleanly or in
the verification failure. -/
theorem read_protect_burned_err (env : EfuseEnv) (isR postR : String → Bool)
    (names : List String) :
    (read_protect_efuse env isR postR names).burned = true →
    (read_protect_efuse env isR postR names).err = none ∨
      (read_protect_efuse env isR postR names).err = some .burnFailed := by
  unfold read_protect_efuse
  split
  · simp [emptyRun]
  · split
    · simp [emptyRun]
    · split <;> simp

/-- A write-protect call that reached burn_all can only end cleanly or in
the verification failure. -/
theorem write_protect_burned_err (env : EfuseEnv) (isW postW : String → Bool)
    (names : List String) :
    (write_protect_efuse env isW postW names).burned = true →
    (write_protect_efuse env isW postW names).err = none ∨
      (write_protect_efuse env isW postW names).err = some .burnFailed := by
  unfold write_protect_efuse
  split
  · simp [emptyRun]
  · split
    · simp [emptyRun]
    · split <;> simp

/-- A raw block burn that reached burn_all ends with no error. -/
theorem burn_block_burned_err (env : EfuseEnv) (fw : Bool) (o : Nat)
    (bns : List String) (dfs : List (List Nat)) :
    (burn_block_data env fw o bns dfs).burned = true →
    (burn_block_data env fw o bns dfs).err = none := by
  unfold burn_block_data
  split
  · simp [emptyRun]
  · split
    · simp [emptyRun]
    · split
      · simp [emptyRun]
      · split
        · simp [emptyRun]
        · split <;> simp [emptyRun]

/-- A single-bit burn that reached burn_all ends with no error. -/
theorem burn_bit_burned_err (env : EfuseEnv) (bn : String) (bits : List Nat) :
    (burn_bit env bn bits).burned = true →
    (burn_bit env bn bits).err = none := by
  unfold burn_bit
  split
  · simp [emptyRun]
  · split <;> simp [emptyRun]

/-- Claim C4 (amended): every validation error of the five entry points is
raised before the hardware commit (burn_all is never reached), but not
with no side effects: burn_block_data assigns force_write_always before
validating and stages earlier blocks before a later block fails its size
check (see the counterexample). -/
theorem validation_errors_precede_burn :
    (∀ (env : EfuseEnv) (hw : Hw) (pairs : List (String × Nat)) (e : EfuseError),
        (burn_efuse env hw pairs).err = some e → e ≠ .burnFailed →
        (burn_efuse env hw pairs).burned = false)
    ∧ (∀ (env : EfuseEnv) (isR postR : String → Bool) (names : List String)
          (e : EfuseError),
        (read_protect_efuse env isR postR names).err = some e → e ≠ .burnFailed →
        (read_protect_efuse env isR postR names).burned = false)
    ∧ (∀ (env : EfuseEnv) (isW postW : String → Bool) (names : List String)
          (e : EfuseError),
        (write_protect_efuse env isW postW names).err = some e → e ≠ .burnFailed →
        (write_protect_efuse env isW postW names).burned = false)
    ∧ (∀ (env : EfuseEnv) (fw : Bool) (o : Nat) (bns : List String)
          (dfs : List (List Nat)) (e : EfuseError),
        (burn_block_data env fw o bns dfs).err = some e →
        (burn_block_data env fw o bns dfs).burned = false)
    ∧ (∀ (env : EfuseEnv) (bn : String) (bits : List Nat) (e : EfuseError),
        (burn_bit env bn bits).err = some e →
        (burn_bit env bn bits).burned = false) := by
  refine ⟨?_, ?_, ?_, ?_, ?_⟩
  · intro env hw pairs e he hne
    cases hb : (burn_efuse env hw pairs).burned with
    | false => rfl
    | true =>
      rcases burn_efuse_burned_err env hw pairs hb with h | h
      · rw [he] at h; cases h
      · rw [he] at h
        exact absurd (Option.some_injective _ h) hne
  · intro env isR postR names e he hne
    cases hb : (read_protect_efuse env isR postR names).burned with
    | false => rfl
    | true =>
      rcases read_protect_burned_err env isR postR names hb with h | h
      · rw [he] at h; cases h
      · rw [he] at h
        exact absurd (Option.some_injective _ h) hne
  · intro env isW postW names e he hne
    cases hb : (write_protect_efuse env isW postW names).burned with
    | false => rfl
    | true =>
      rcases write_protect_burned_err env isW postW names hb with h | h
      · rw [he] at h; cases h
      · rw [he] at h
        exact absurd (Option.some_injective _ h) hne
  · intro env fw o bns dfs e he
    cases hb : (burn_block_data env fw o bns dfs).burned with
    | false => rfl
    | true =>
      have h := burn_block_burned_err env fw o bns dfs hb
      rw [he] at h; cases h
  · intro env bn bits e he
    cases hb : (burn_bit env bn bits).burned with
    | false => rfl
    | true =>
      have h := burn_bit_burned_err env bn bits hb
      rw [he] at h; cases h

/-- Counterexample to claim C4 as stated: a duplicate-name validation
error in burn_block_data is raised only after the controller flag
force_write_always has been assigned, and a size-mismatch validation
error on a second block is raised only after the first block has already
been staged, so a validation error does not imply the absence of side
effects. -/
theorem burn_block_data_side_effect_cex :
    ((burn_block_data envT true 0 ["BLK0", "BLK0"] [[], []]).err =
        some .duplicateName
      ∧ (burn_block_data envT true 0 ["BLK0", "BLK0"] [[], []]).forceWrite =
        some true)
    ∧ ((burn_block_data envT false 0 ["BLK1", "BLK0"] [[1, 2], [9]]).err =
        some (.sizeMismatch 0 4 1 0)
      ∧ (burn_block_data envT false 0 ["BLK1", "BLK0"] [[1, 2], [9]]).blockStaged =
        [(1, [1, 2])]) := by
  exact ⟨⟨rfl, rfl⟩, ⟨rfl, rfl⟩⟩

/-- The bit-setting loop fails exactly when some requested position falls
outside the buffer. -/
theorem setBits_none_iff : ∀ (ps : List Nat) (buf : List Bool),
    setBits buf ps = none ↔ ∃ p ∈ ps, buf.length ≤ p := by
  intro ps
  induction ps with
  | nil => intro buf; simp [setBits]
  | cons p rest ih =>
    intro buf
    by_cases hp : p < buf.length
    · rw [setBits, if_pos hp, ih, List.length_set]
      constructor
      · rintro ⟨q, hq, hql⟩
        exact ⟨q, List.mem_cons_of_mem p hq, hql⟩
      · rintro ⟨q, hq, hql⟩
        rcases List.mem_cons.mp hq with hq | hq
        · subst hq; omega
        · exact ⟨q, hq, hql⟩
    · rw [setBits, if_neg hp]
      simp only [true_iff]
      exact ⟨p, List.mem_cons_self p rest, Nat.le_of_not_lt hp⟩

/-- On all-in-range positions the bit-setting loop succeeds with the
result of its total variant. -/
theorem setBits_eq_setBitsTotal : ∀ (ps : List Nat) (buf : List Bool),
    (∀ p ∈ ps, p < buf.length) → setBits buf ps = some (setBitsTotal buf ps) := by
  intro ps
  induction ps with
  | nil => intro buf _; rfl
  | cons p rest ih =>
    intro buf h
    have hp := h p (by simp)
    rw [setBits, if_pos hp, setBitsTotal]
    exact ih (buf.set p true)
      (fun q hq => by rw [List.length_set]; exact h q (by simp [hq]))

/-- Claim C5: every requested bit index must lie below the bit length of
the block: the call fails with the bounds error naming the inclusive range
end exactly when some index is out of range, before any staging or burn,
and succeeds (reaching the burn) exactly when all indices are in range. -/
theorem burn_bit_bounds (env : EfuseEnv) (bn : String) (bits : List Nat) (i : Nat)
    (hi : env.blockIdxByName? bn = some i) :
    ((burn_bit env bn bits).err =
        some (.bitRange bn ((env.blockAt i).len * 8 - 1)) ↔
      ∃ b ∈ bits, (env.blockAt i).len * 8 ≤ b)
    ∧ ((burn_bit env bn bits).err = none ↔
        ∀ b ∈ bits, b < (env.blockAt i).len * 8)
    ∧ ((burn_bit env bn bits).err ≠ none →
        (burn_bit env bn bits).blockStaged = [] ∧ (burn_bit env bn bits).burned = false)
    ∧ ((burn_bit env bn bits).err = none → (burn_bit env bn bits).burned = true) := by
  cases hs : setBits (List.replicate ((env.blockAt i).len * 8) false) bits with
  | none =>
    have hrun : burn_bit env bn bits =
        { emptyRun with err := some (.bitRange bn ((env.blockAt i).len * 8 - 1)) } := by
      unfold burn_bit; rw [hi]; dsimp only; rw [hs]
    have hex : ∃ b ∈ bits, (env.blockAt i).len * 8 ≤ b := by
      have := (setBits_none_iff bits _).mp hs
      simpa using this
    refine ⟨by simp [hrun, hex], ?_, fun _ => by simp [hrun, emptyRun], by simp [hrun]⟩
    simp only [hrun]
    constructor
    · intro h; cases h
    · intro hall
      obtain ⟨b, hb, hbl⟩ := hex
      exact absurd (hall b hb) (Nat.not_lt.mpr hbl)
  | some buf =>
    have hrun : burn_bit env bn bits =
        { emptyRun with
          blockStaged := [((env.blockAt i).id, (bitsToBytes buf.reverse).reverse)]
          burned := true } := by
      unfold burn_bit; rw [hi]; dsimp only; rw [hs]
    have hall : ∀ b ∈ bits, b < (env.blockAt i).len * 8 := by
      intro b hb
      by_contra hge
      have : setBits (List.replicate ((env.blockAt i).len * 8) false) bits = none :=
        (setBits_none_iff bits _).mpr ⟨b, hb, by simpa using Nat.le_of_not_lt hge⟩
      rw [hs] at this; cases this
    refine ⟨?_, ⟨fun _ => hall, fun _ => by simp [hrun, emptyRun]⟩,
      fun hne => absurd (by simp [hrun, emptyRun]) hne, fun _ => by simp [hrun]⟩
    simp only [hrun]
    constructor
    · intro h
      exact absurd h (by simp [emptyRun])
    · rintro ⟨b, hb, hbl⟩
      exact absurd (hall b hb) (Nat.not_lt.mpr hbl)

/-- Claim C6: the bytes staged by a single-bit burn are obtained from the
zeroed bit buffer with the requested bits set by applying two distinct
transforms in sequence: a bit-order reversal of the whole buffer followed
by a byte-order reversal of its serialized bytes; on the 16-bit example
with bit 0 set neither transform alone (nor none) produces the staged
bytes. -/
theorem burn_bit_double_reversal (env : EfuseEnv) (bn : String) (bits : List Nat)
    (i : Nat) (hi : env.blockIdxByName? bn = some i)
    (hin : ∀ b ∈ bits, b < (env.blockAt i).len * 8) :
    (burn_bit env bn bits).blockStaged =
      [((env.blockAt i).id,
        (bitsToBytes
          (setBitsTotal (List.replicate ((env.blockAt i).len * 8) false) bits).reverse).reverse)]
    ∧ (burn_bit envT "BLK1" [0]).blockStaged =
        [(1, (bitsToBytes (setBitsTotal (List.replicate 16 false) [0]).reverse).reverse)]
    ∧ (bitsToBytes (setBitsTotal (List.replicate 16 false) [0]).reverse).reverse ≠
        bitsToBytes (setBitsTotal (List.replicate 16 false) [0]).reverse
    ∧ (bitsToBytes (setBitsTotal (List.replicate 16 false) [0]).reverse).reverse ≠
        (bitsToBytes (setBitsTotal (List.replicate 16 false) [0])).reverse
    ∧ (bitsToBytes (setBitsTotal (List.replicate 16 false) [0]).reverse).reverse ≠
        bitsToBytes (setBitsTotal (List.replicate 16 false) [0]) := by
  have hs : setBits (List.replicate ((env.blockAt i).len * 8) false) bits =
      some (setBitsTotal (List.replicate ((env.blockAt i).len * 8) false) bits) :=
    setBits_eq_setBitsTotal bits _ (by simpa using hin)
  have hrun : (burn_bit env bn bits).blockStaged =
      [((env.blockAt i).id,
        (bitsToBytes
          (setBitsTotal (List.replicate ((env.blockAt i).len * 8) false) bits).reverse).reverse)] := by
    unfold burn_bit; rw [hi]; dsimp only; rw [hs]
  exact ⟨hrun, by decide, by decide, by decide, by decide⟩

/-- Membership in the embedded symmetric difference agrees with the
set-theoretic symmetric difference. -/
theorem mem_symmDiffNames (a b : List String) (x : String) :
    x ∈ symmDiffNames a b ↔ (x ∈ a ∧ x ∉ b) ∨ (x ∈ b ∧ x ∉ a) := by
  simp [symmDiffNames, List.mem_filter, List.mem_append]

/-- The inner hazard fold overwrites its state with the attention flag and
the blocked list of the current block as soon as it sees one field of a
coded block, and every later field of the same block rewrites the same
value. -/
theorem hazard_foldl_const (env : EfuseEnv) (B : EfuseBlock)
    (burnA : List EfuseField) (hBat : env.blockAt B.id = B)
    (hcode : B.coding_scheme ≠ CODING_SCHEME_NONE) :
    ∀ (l : List EfuseField) (st : Bool × List String), l ≠ [] →
      (∀ f ∈ l, f.block = B.id) →
      List.foldl
        (fun st f =>
          if (env.blockAt f.block).coding_scheme != CODING_SCHEME_NONE then
            (true,
              symmDiffNames
                ((env.efuses.filter (fun e => e.block == f.block)).map (fun e => e.name))
                (burnA.map (fun e => e.name)))
          else st)
        st l
      = (true,
          symmDiffNames
            ((env.efuses.filter (fun e => e.block == B.id)).map (fun e => e.name))
            (burnA.map (fun e => e.name))) := by
  intro l
  induction l with
  | nil => intro st hne _; exact absurd rfl hne
  | cons f rest ih =>
    intro st _ hall
    have hfB : f.block = B.id := hall f (by simp)
    have hcond : ((env.blockAt B.id).coding_scheme != CODING_SCHEME_NONE) = true := by
      rw [hBat]
      simpa using hcode
    rw [List.foldl_cons]
    cases rest with
    | nil =>
      rw [List.foldl_nil]
      rw [hfB, if_pos hcond]
    | cons g rest2 =>
      rw [hfB, if_pos hcond]
      exact ih _ (by simp) (fun g2 hg2 => hall g2 (by simp [hg2]))

/-- The outer hazard loop emits, for every coded block with a nonempty
burn list and a nonempty blocked list, a warning attributed to that block
carrying the blocked list computed for that block, whatever the incoming
sticky state. -/
theorem hazardGo_mem (env : EfuseEnv) (burnList : List EfuseField) (B : EfuseBlock)
    (hBat : env.blockAt B.id = B) (hcode : B.coding_scheme ≠ CODING_SCHEME_NONE)
    (hne : burnList.filter (fun e => e.block == B.id) ≠ [])
    (hwne : symmDiffNames
        ((env.efuses.filter (fun e => e.block == B.id)).map (fun e => e.name))
        ((burnList.filter (fun e => e.block == B.id)).map (fun e => e.name)) ≠ []) :
    ∀ (l1 l2 : List EfuseBlock) (st : Bool × List String),
      (B.id, symmDiffNames
        ((env.efuses.filter (fun e => e.block == B.id)).map (fun e => e.name))
        ((burnList.filter (fun e => e.block == B.id)).map (fun e => e.name)))
        ∈ hazardGo env burnList (l1 ++ B :: l2) st := by
  have hinner : ∀ st, hazardInner env (burnList.filter (fun e => e.block == B.id)) st =
      (true,
        symmDiffNames
          ((env.efuses.filter (fun e => e.block == B.id)).map (fun e => e.name))
          ((burnList.filter (fun e => e.block == B.id)).map (fun e => e.name))) := by
    intro st
    unfold hazardInner
    exact hazard_foldl_const env B _ hBat hcode _ st hne
      (fun f hf => by simpa using (List.mem_filter.mp hf).2)
  intro l1
  induction l1 with
  | nil =>
    intro l2 st
    simp only [List.nil_append, hazardGo]
    rw [if_neg (by simp [List.isEmpty_iff, hne]), hinner st]
    simp only [Bool.true_and]
    rw [if_pos (by simp [List.isEmpty_iff, hwne])]
    exact List.mem_append_left _ (by simp)
  | cons b l1 ih =>
    intro l2 st
    simp only [List.cons_append, hazardGo]
    by_cases hb : (burnList.filter (fun e => e.block == b.id)).isEmpty
    · rw [if_pos hb]
      exact ih l2 st
    · rw [if_neg hb]
      exact List.mem_append_right _ (ih l2 _)

/-- Claim C7: for every value burn touching a block with a coding scheme
other than NONE, a warning attributed to that block enumerates exactly the
symmetric difference between all field names of that block and the field
names being written in that block, and a nonempty warning never keeps the
call from staging and committing. -/
theorem hazard_warning_exact (env : EfuseEnv) (hw : Hw)
    (pairs : List (String × Nat)) (fields : List EfuseField) (B : EfuseBlock)
    (hlk : lookupAll env (pairs.map (fun p => p.1)) = .ok fields)
    (hd : duplicate_name_in_list (pairs.map (fun p => p.1)) = false)
    (hB : B ∈ env.blocks) (hBat : env.blockAt B.id = B)
    (hcode : B.coding_scheme ≠ CODING_SCHEME_NONE)
    (htouch : fields.filter (fun e => e.block == B.id) ≠ [])
    (hsd : symmDiffNames
        ((env.efuses.filter (fun e => e.block == B.id)).map (fun e => e.name))
        ((fields.filter (fun e => e.block == B.id)).map (fun e => e.name)) ≠ []) :
    (∃ w, (B.id, w) ∈ (burn_efuse env hw pairs).warnings ∧
        ∀ x, x ∈ w ↔
          ((x ∈ (env.efuses.filter (fun e => e.block == B.id)).map (fun e => e.name)
              ∧ x ∉ (fields.filter (fun e => e.block == B.id)).map (fun e => e.name))
            ∨ (x ∈ (fields.filter (fun e => e.block == B.id)).map (fun e => e.name)
              ∧ x ∉ (env.efuses.filter (fun e => e.block == B.id)).map (fun e => e.name))))
    ∧ (burn_efuse env hw pairs).burned = true
    ∧ (burn_efuse env hw pairs).fieldStaged = pairs := by
  rw [burn_efuse_eq_ok env hw pairs fields hlk hd]
  obtain ⟨l1, l2, hsplit⟩ := List.append_of_mem hB
  refine ⟨⟨symmDiffNames
      ((env.efuses.filter (fun e => e.block == B.id)).map (fun e => e.name))
      ((fields.filter (fun e => e.block == B.id)).map (fun e => e.name)), ?_,
      fun x => mem_symmDiffNames _ _ x⟩, rfl, rfl⟩
  show _ ∈ hazardGo env fields env.blocks (false, [])
  rw [hsplit]
  exact hazardGo_mem env fields B hBat hcode htouch hsd l1 l2 (false, [])

/-- Claim C8: a duplicated name in the burn_efuse, read_protect_efuse,
write_protect_efuse or burn_block_data name list makes the call fail with
DuplicateNameError before anything is staged and before any burn. -/
theorem duplicate_rejected_before_staging (env : EfuseEnv) (hw : Hw)
    (isR postR isW postW : String → Bool) (fw : Bool) (o : Nat) :
    (∀ (pairs : List (String × Nat)),
        duplicate_name_in_list (pairs.map (fun p => p.1)) = true →
        (∀ n ∈ pairs.map (fun p => p.1), (env.findField? n).isSome) →
        (burn_efuse env hw pairs).err = some .duplicateName
        ∧ (burn_efuse env hw pairs).fieldStaged = []
        ∧ (burn_efuse env hw pairs).burned = false)
    ∧ (∀ (names : List String), duplicate_name_in_list names = true →
        (read_protect_efuse env isR postR names).err = some .duplicateName
        ∧ (read_protect_efuse env isR postR names).bitStaged = []
        ∧ (read_protect_efuse env isR postR names).burned = false)
    ∧ (∀ (names : List String), duplicate_name_in_list names = true →
        (write_protect_efuse env isW postW names).err = some .duplicateName
        ∧ (write_protect_efuse env isW postW names).bitStaged = []
        ∧ (write_protect_efuse env isW postW names).burned = false)
    ∧ (∀ (bns : List String) (dfs : List (List Nat)),
        duplicate_name_in_list bns = true →
        (burn_block_data env fw o bns dfs).err = some .duplicateName
        ∧ (burn_block_data env fw o bns dfs).blockStaged = []
        ∧ (burn_block_data env fw o bns dfs).burned = false) := by
  refine ⟨?_, ?_, ?_, ?_⟩
  · intro pairs hd hres
    obtain ⟨fields, hlk⟩ := lookupAll_ok_of_isSome hres
    rw [burn_efuse_eq_dup env hw pairs fields hlk hd]
    exact ⟨rfl, rfl, rfl⟩
  · intro names hd
    rw [read_protect_eq_dup env isR postR names hd]
    exact ⟨rfl, rfl, rfl⟩
  · intro names hd
    rw [write_protect_eq_dup env isW postW names hd]
    exact ⟨rfl, rfl, rfl⟩
  · intro bns dfs hd
    unfold burn_block_data
    rw [if_pos (by simp [hd])]
    exact ⟨rfl, rfl, rfl⟩

/-- The duplicate check is false exactly on lists without repetition. -/
theorem dup_eq_false_iff (l : List String) :
    duplicate_name_in_list l = false ↔ l.Nodup := by
  induction l with
  | nil => simp [duplicate_name_in_list]
  | cons n rest ih =>
    rw [duplicate_name_in_list, Bool.or_eq_false_iff, ih, List.nodup_cons]
    constructor
    · rintro ⟨hc, hn⟩
      refine ⟨fun hm => ?_, hn⟩
      exact absurd hm (by simpa using hc)
    · rintro ⟨hm, hn⟩
      refine ⟨?_, hn⟩
      cases hc : rest.contains n with
      | false => rfl
      | true => exact absurd ((List.elem_iff).mp hc) hm

/-- Inserting into the embedded dict preserves key distinctness: an
existing key keeps its place, a fresh key is appended. -/
theorem dictInsert_keys_nodup (d : List (String × Nat)) (k : String) (v : Nat)
    (h : (d.map (fun p => p.1)).Nodup) :
    ((dictInsert d k v).map (fun p => p.1)).Nodup := by
  by_cases hc : d.any (fun p => p.1 == k)
  · have heq : (dictInsert d k v).map (fun p => p.1) = d.map (fun p => p.1) := by
      rw [dictInsert, if_pos hc, List.map_map]
      apply List.map_congr_left
      intro p _
      by_cases hpk : p.1 == k
      · simp only [Function.comp_apply, if_pos hpk]
        exact (beq_iff_eq.mp hpk).symm
      · simp only [Function.comp_apply, if_neg hpk]
    rw [heq]; exact h
  · have heq : (dictInsert d k v).map (fun p => p.1) = d.map (fun p => p.1) ++ [k] := by
      rw [dictInsert, if_neg hc]; simp
    have hk : k ∉ d.map (fun p => p.1) := by
      intro hmem
      rcases List.mem_map.mp hmem with ⟨p, hp, hpk⟩
      exact hc (List.any_eq_true.mpr ⟨p, hp, by simp [hpk]⟩)
    rw [heq]
    simp [List.nodup_append, h, hk]

/-- The pair loop of the value-burn argument action preserves key
distinctness of the accumulated dict. -/
theorem buildPairs_nodup (choices : List String)
    (checkArg : String → Option String → Nat) :
    ∀ (vs : List String) (acc pairs : List (String × Nat)),
      (acc.map (fun p => p.1)).Nodup →
      buildPairs choices checkArg vs acc = .ok pairs →
      (pairs.map (fun p => p.1)).Nodup
  | [], acc, pairs, h, heq => by
    rw [buildPairs] at heq
    cases heq
    exact h
  | n :: v :: rest, acc, pairs, h, heq => by
    rw [buildPairs] at heq
    by_cases hn : choices.contains n
    · rw [if_pos hn] at heq
      exact buildPairs_nodup choices checkArg rest
        (dictInsert acc n (checkArg n (some v))) pairs
        (dictInsert_keys_nodup acc n (checkArg n (some v)) h) heq
    · rw [if_neg hn] at heq
      cases heq
  | [_], _, _, _, heq => by
    rw [buildPairs] at heq
    cases heq

/-- The dict built by the value-burn argument action always has distinct
keys: duplicated name/value pairs on the surface collapse. -/
theorem actionEfuseValuePair_nodup (choices : List String)
    (checkArg : String → Option String → Nat) (values : List String)
    (pairs : List (String × Nat))
    (h : actionEfuseValuePair choices checkArg values = .ok pairs) :
    (pairs.map (fun p => p.1)).Nodup := by
  unfold actionEfuseValuePair at h
  by_cases hlen : values.length > 1
  · rw [if_pos hlen] at h
    by_cases hodd : (values.length % 2 == 1) = true
    · rw [if_pos hodd] at h
      cases h
    · rw [if_neg hodd] at h
      exact buildPairs_nodup choices checkArg values [] pairs (by simp) h
  · rw [if_neg hlen] at h
    cases values with
    | nil => cases h
    | cons n rest =>
      dsimp only at h
      by_cases hc : choices.contains n
      · rw [if_pos hc] at h
        cases h
        simp [dictInsert]
      · rw [if_neg hc] at h
        cases h

/-- The list lookup only ever fails with the unknown-field error. -/
theorem lookupAll_error_unknown (env : EfuseEnv) :
    ∀ (ns : List String) (e : EfuseError), lookupAll env ns = .error e →
      ∃ n, e = .unknownField n := by
  intro ns
  induction ns with
  | nil => intro e he; cases he
  | cons n rest ih =>
    intro e he
    rw [lookupAll] at he
    cases hf : env.findField? n with
    | none =>
      rw [hf] at he
      cases he
      exact ⟨n, rfl⟩
    | some f =>
      rw [hf] at he
      cases hrest : lookupAll env rest with
      | error e2 =>
        rw [hrest] at he
        cases he
        exact ih e hrest
      | ok fs =>
        rw [hrest] at he
        cases he

/-- Claim C10: the duplicate-name check of burn_efuse can never fire when
the pairs come from the argument action: the dict keys are distinct by
construction (the last value wins for a repeated surface name), so the
DuplicateNameError branch is unreachable from the value-burn entry
point. -/
theorem burn_efuse_duplicate_unreachable (env : EfuseEnv) (hw : Hw)
    (choices : List String) (checkArg : String → Option String → Nat)
    (values : List String) (pairs : List (String × Nat))
    (h : actionEfuseValuePair choices checkArg values = .ok pairs) :
    duplicate_name_in_list (pairs.map (fun p => p.1)) = false
    ∧ (burn_efuse env hw pairs).err ≠ some .duplicateName := by
  have hnodup := actionEfuseValuePair_nodup choices checkArg values pairs h
  have hdf : duplicate_name_in_list (pairs.map (fun p => p.1)) = false :=
    (dup_eq_false_iff _).mpr hnodup
  refine ⟨hdf, ?_⟩
  cases hl : lookupAll env (pairs.map (fun p => p.1)) with
  | error e =>
    rw [burn_efuse_eq_error env hw pairs e hl]
    obtain ⟨n, hn⟩ := lookupAll_error_unknown env _ e hl
    simp [hn]
  | ok fields =>
    rw [burn_efuse_eq_ok env hw pairs fields hl hdf]
    by_cases hm : (verifyLoop hw pairs).2.isEmpty <;> simp [hm]

/-! ### Witnesses: each claim theorem evaluated at a concrete input -/

/-- Witness for C1 on the test registry: a one-field burn reaches the
commit and the verification equivalence holds there. -/
theorem burn_efuse_verification_witness :
    (burn_efuse envT hwT [("A", 7)]).burned = true
    ∧ (((burn_efuse envT hwT [("A", 7)]).err = none ↔
        ∀ p ∈ [("A", 7)], hwT.readable p.1 = true →
          hwT.readback p.1 = hwT.convert p.1 p.2)
      ∧ ∀ p ∈ [("A", 7)], hwT.readable p.1 = false →
          p.1 ∈ (burn_efuse envT hwT [("A", 7)]).unreadable) :=
  ⟨by decide, burn_efuse_verification envT hwT [("A", 7)] (by decide)⟩

/-- Witness for C2 on the test registry: with every field already
read-protected the read-protect call does not burn, while write-protect
with one field already protected still burns. -/
theorem protect_asymmetry_witness :
    (read_protect_efuse envT (fun _ => false) (fun _ => false) ["A", "B"]).burned = false
    ∧ (write_protect_efuse envT (fun n => n == "A") (fun _ => false) ["A", "B"]).burned
        = true :=
  ⟨((protect_asymmetry envT (fun _ => false) (fun _ => false) (fun n => n == "A")
      (fun _ => false) ["A", "B"] (by decide) (by decide)).1
      ⟨"A", by decide, rfl⟩).1,
   (protect_asymmetry envT (fun _ => false) (fun _ => false) (fun n => n == "A")
      (fun _ => false) ["A", "B"] (by decide) (by decide)).2.1⟩

/-- Witness for the amended C3 on the test registry: offset 1 with a
2-byte payload into the 4-byte block succeeds. -/
theorem burn_block_data_staging_witness :
    envT.blockIdxByName? "BLK0" = some 0
    ∧ (burn_block_data envT false 1 ["BLK0"] [[9, 9]]).err = none :=
  ⟨by decide,
   (burn_block_data_staging envT false 1 "BLK0" [9, 9] 0 (by decide)
      (Or.inr (by decide))).1.mpr (by decide)⟩

/-- Witness for the amended C4 on the test registry: the duplicate-name
validation error of burn_block_data happens without reaching the burn. -/
theorem validation_errors_precede_burn_witness :
    (burn_block_data envT false 0 ["BLK0", "BLK0"] [[], []]).err =
      some .duplicateName
    ∧ (burn_block_data envT false 0 ["BLK0", "BLK0"] [[], []]).burned = false :=
  ⟨by decide,
   validation_errors_precede_burn.2.2.2.1 envT false 0 ["BLK0", "BLK0"] [[], []]
     .duplicateName (by decide)⟩

/-- Witness for C5 on the 32-byte test block: bit index 255 succeeds and
bit index 256 fails with the bounds error citing 255. -/
theorem burn_bit_bounds_witness :
    envT.blockIdxByName? "BLK2" = some 2
    ∧ (burn_bit envT "BLK2" [255]).err = none
    ∧ (burn_bit envT "BLK2" [256]).err = some (.bitRange "BLK2" 255) :=
  ⟨by decide,
   (burn_bit_bounds envT "BLK2" [255] 2 (by decide)).2.1.mpr (by decide),
   (burn_bit_bounds envT "BLK2" [256] 2 (by decide)).1.mpr
     ⟨256, by decide, by decide⟩⟩

/-- Witness for C6 on the 2-byte test block: the staged bytes of the
one-bit burn equal the double-reversal form. -/
theorem burn_bit_double_reversal_witness :
    (∀ b ∈ [0], b < (envT.blockAt 1).len * 8)
    ∧ (burn_bit envT "BLK1" [0]).blockStaged =
        [(1, (bitsToBytes (setBitsTotal (List.replicate 16 false) [0]).reverse).reverse)] :=
  ⟨by decide,
   (burn_bit_double_reversal envT "BLK1" [0] 1 (by decide) (by decide)).2.1⟩

/-- Witness for C7 on the test registry: burning field A of the coded
block 0 emits the warning and still burns. -/
theorem hazard_warning_exact_witness :
    duplicate_name_in_list ([("A", 7)].map (fun p => (p : String × Nat).1)) = false
    ∧ (burn_efuse envT hwT [("A", 7)]).burned = true :=
  ⟨by decide,
   (hazard_warning_exact envT hwT [("A", 7)] [fldA] ⟨0, "BLK0", 4, 1⟩ rfl (by decide)
      (by decide) (by decide) (by decide) (by decide) (by decide)).2.1⟩

/-- Witness for C8 on the test registry: a repeated name makes all four
entry points fail with the duplicate error without burning. -/
theorem duplicate_rejected_before_staging_witness :
    (burn_efuse envT hwT [("A", 1), ("A", 2)]).err = some .duplicateName
    ∧ (read_protect_efuse envT (fun _ => true) (fun _ => false) ["A", "A"]).err =
        some .duplicateName
    ∧ (write_protect_efuse envT (fun _ => true) (fun _ => false) ["A", "A"]).err =
        some .duplicateName
    ∧ (burn_block_data envT false 0 ["BLK0", "BLK0"] [[], []]).err =
        some .duplicateName :=
  ⟨((duplicate_rejected_before_staging envT hwT (fun _ => true) (fun _ => false)
      (fun _ => true) (fun _ => false) false 0).1 [("A", 1), ("A", 2)] (by decide)
      (by decide)).1,
   ((duplicate_rejected_before_staging envT hwT (fun _ => true) (fun _ => false)
      (fun _ => true) (fun _ => false) false 0).2.1 ["A", "A"] (by decide)).1,
   ((duplicate_rejected_before_staging envT hwT (fun _ => true) (fun _ => false)
      (fun _ => true) (fun _ => false) false 0).2.2.1 ["A", "A"] (by decide)).1,
   ((duplicate_rejected_before_staging envT hwT (fun _ => true) (fun _ => false)
      (fun _ => true) (fun _ => false) false 0).2.2.2 ["BLK0", "BLK0"] [[], []]
      (by decide)).1⟩

/-- Witness for C9 on the test registry: field A stages its read-disable
bit, then the already protected field C makes the call return with no
burn and no error. -/
theorem read_protect_early_return_frame_witness :
    (read_protect_efuse envT (fun n => n == "A") (fun _ => false)
        (["A"] ++ "C" :: [])).bitStaged.map Prod.fst = ["A"]
    ∧ (read_protect_efuse envT (fun n => n == "A") (fun _ => false)
        (["A"] ++ "C" :: [])).burned = false
    ∧ (read_protect_efuse envT (fun n => n == "A") (fun _ => false)
        (["A"] ++ "C" :: [])).err = none :=
  ⟨(read_protect_early_return_frame envT (fun n => n == "A") (fun _ => false) ["A"]
      "C" [] (by decide) (by decide) (by decide) (by decide)).1,
   (read_protect_early_return_frame envT (fun n => n == "A") (fun _ => false) ["A"]
      "C" [] (by decide) (by decide) (by decide) (by decide)).2.1,
   (read_protect_early_return_frame envT (fun n => n == "A") (fun _ => false) ["A"]
      "C" [] (by decide) (by decide) (by decide) (by decide)).2.2.1⟩

/-- Witness for C10: the surface list naming A twice collapses into one
dict entry, and the duplicate branch of burn_efuse does not fire. -/
theorem burn_efuse_duplicate_unreachable_witness :
    duplicate_name_in_list ([("A", 7)].map (fun p => (p : String × Nat).1)) = false
    ∧ (burn_efuse envT hwT [("A", 7)]).err ≠ some .duplicateName :=
  burn_efuse_duplicate_unreachable envT hwT ["A", "B"] (fun _ _ => 7)
    ["A", "1", "A", "2"] [("A", 7)] rfl

end Esptool
